import Mathlib

/-!
Verification of the moving-window integrator reference model
(testbench/model/moving_integrator_model.py).

The two model functions are embedded with exact rational arithmetic:

* `moving_integrator` (float_integrate): full discrete convolution with a uniform
  kernel of length `integration`, optionally trimmed to the input length.
  `np.convolve` rejects an empty input array or an empty kernel, so the embedding
  returns `Option`, with `none` standing for the raised `ValueError`.
* `fpga_moving_integrator` (fixed_point_integrate): a streaming accumulator over a
  shift register pre-filled with `integration` zeros; each step pops the oldest
  value from the right end, pushes the new sample on the left, and quantizes
  `acc / integration * 2 ^ extra_bits` by flooring toward negative infinity
  (truncate mode) or by rounding half to even, the semantics of the built-in
  rounding used in the source (round mode).  Popping from an empty register
  (integration = 0 with a non-empty input) raises, modelled as `none`.
-/

namespace MovingIntegrator

/-- Rounding of a rational number to the nearest integer with ties resolved to the
even neighbour; this is the behaviour of the rounding builtin the model applies in
round mode. -/
def roundHalfEven (q : ℚ) : ℤ :=
  if q - ⌊q⌋ < 1 / 2 then ⌊q⌋
  else if 1 / 2 < q - ⌊q⌋ then ⌊q⌋ + 1
  else if ⌊q⌋ % 2 = 0 then ⌊q⌋ else ⌊q⌋ + 1

/-- Exact scaled value `acc / integration * 2 ^ extra_bits` of step 3 of the
fixed-point contract. -/
def scaledVal (n : ℕ) (e : ℤ) (acc : ℤ) : ℚ := (acc : ℚ) / (n : ℚ) * 2 ^ e

/-- Quantization step of `fpga_moving_integrator`: round or floor the scaled value,
then divide the resulting integer by `2 ^ extra_bits`. -/
def quantize (mathRound : Bool) (n : ℕ) (e : ℤ) (acc : ℤ) : ℚ :=
  if mathRound then (roundHalfEven (scaledVal n e acc) : ℚ) / 2 ^ e
  else ((⌊scaledVal n e acc⌋ : ℤ) : ℚ) / 2 ^ e

/-- One iteration of the loop body of `fpga_moving_integrator`: pop the oldest
value from the right end of the shift register, update the accumulator, push the
new sample on the left.  Popping an empty register fails (the IndexError raised by
the deque in the source). -/
def fpgaStep (sample acc : ℤ) (sreg : List ℤ) : Option (ℤ × List ℤ) :=
  match sreg.getLast? with
  | none => none
  | some evicted => some (acc + sample - evicted, sample :: sreg.dropLast)

/-- The per-sample loop of `fpga_moving_integrator`, emitting one quantized output
per consumed sample. -/
def fpgaLoop (n : ℕ) (mr : Bool) (e : ℤ) : List ℤ → ℤ → List ℤ → Option (List ℚ)
  | [], _, _ => some []
  | sample :: rest, acc, sreg =>
    match fpgaStep sample acc sreg with
    | none => none
    | some (acc2, sreg2) =>
      Option.map (fun out => quantize mr n e acc2 :: out) (fpgaLoop n mr e rest acc2 sreg2)

/-- Embedding of `fpga_moving_integrator(samples, integration, math_round, extra_bits)`:
shift register initialised with `integration` zeros, accumulator zero, then the
streaming loop. -/
def fpga_moving_integrator (samples : List ℤ) (n : ℕ) (mr : Bool) (e : ℤ) :
    Option (List ℚ) :=
  fpgaLoop n mr e samples 0 (List.replicate n 0)

/-- Trace of the (accumulator, shift register) states reached after each per-sample
update of the streaming loop, stopping early if a step fails. -/
def fpgaStatesFrom : List ℤ → ℤ → List ℤ → List (ℤ × List ℤ)
  | [], _, _ => []
  | sample :: rest, acc, sreg =>
    match fpgaStep sample acc sreg with
    | none => []
    | some (acc2, sreg2) => (acc2, sreg2) :: fpgaStatesFrom rest acc2 sreg2

/-- State trace of `fpga_moving_integrator` from its initial state. -/
def fpgaStates (n : ℕ) (samples : List ℤ) : List (ℤ × List ℤ) :=
  fpgaStatesFrom samples 0 (List.replicate n 0)

/-- Specification-side value of the accumulator after sample `k` has been
processed: the sum of the last `min (k+1) n` samples, written independently of the
loop as a take/drop of the input. -/
def windowSum (n : ℕ) (samples : List ℤ) (k : ℕ) : ℤ :=
  ((samples.take (k + 1)).drop (k + 1 - n)).sum

/-- Accumulator value determined by a processed prefix `p`: the sum of its last
`n` elements. -/
def wacc (n : ℕ) (p : List ℤ) : ℤ := (p.drop (p.length - n)).sum

/-- Shift-register contents determined by a processed prefix `p`: the last `n`
samples newest-first, padded at the old end with the initial zeros. -/
def wreg (n : ℕ) (p : List ℤ) : List ℤ :=
  p.reverse.take n ++ List.replicate (n - p.length) 0

/-- Value evicted from the register when one more sample arrives after prefix `p`:
an initial zero while the window is still filling, else the sample that fell out
of the window. -/
def evictVal (n : ℕ) (p : List ℤ) : ℤ :=
  if p.length < n then 0 else p.getD (p.length - n) 0

/-- Entry `k` of the full discrete convolution of two sequences. -/
def convEntry (a v : List ℚ) (k : ℕ) : ℚ :=
  ∑ i in Finset.range (k + 1), a.getD i 0 * v.getD (k - i) 0

/-- Full discrete convolution, of length `len a + len v - 1`. -/
def convFull (a v : List ℚ) : List ℚ :=
  (List.range (a.length + v.length - 1)).map (convEntry a v)

/-- Embedding of `np.convolve` in full mode: it raises ValueError when either
argument is empty, modelled as `none`. -/
def npConvolve (a v : List ℚ) : Option (List ℚ) :=
  if a.length = 0 ∨ v.length = 0 then none else some (convFull a v)

/-- Embedding of `moving_integrator(samples, integration, trim_output)`:
convolution with the uniform kernel `np.ones(integration)/integration`, trimmed to
the input length when requested. -/
def moving_integrator (samples : List ℚ) (n : ℕ) (trimOutput : Bool) :
    Option (List ℚ) :=
  Option.map (fun mm => if trimOutput then mm.take samples.length else mm)
    (npConvolve samples (List.replicate n ((n : ℚ)⁻¹)))

/-! Helper lemmas about the abstract window state `(wacc n p, wreg n p)` reached
after processing a prefix `p` of the input. -/

theorem wreg_length (n : ℕ) (p : List ℤ) : (wreg n p).length = n := by
  simp only [wreg, List.length_append, List.length_take, List.length_reverse,
    List.length_replicate]
  omega

theorem wreg_getLast? (n : ℕ) (p : List ℤ) (hn : 1 ≤ n) :
    (wreg n p).getLast? = some (evictVal n p) := by
  rcases lt_or_le p.length n with h | h
  · have h0 : ¬ n - p.length = 0 := by omega
    simp [wreg, evictVal, List.getLast?_append, List.getLast?_replicate, h0, h]
  · have h0 : n - p.length = 0 := by omega
    have hlt : p.length - n < p.length := by omega
    rw [wreg, h0]
    simp only [List.replicate_zero, List.append_nil]
    rw [← List.head?_reverse, List.reverse_take, List.reverse_reverse,
      List.length_reverse, List.drop_eq_getElem_cons hlt, List.head?_cons,
      evictVal, if_neg (by omega), List.getD_eq_getElem p 0 hlt]

theorem wreg_append (n : ℕ) (p : List ℤ) (s : ℤ) (hn : 1 ≤ n) :
    wreg n (p ++ [s]) = s :: (wreg n p).dropLast := by
  obtain ⟨m, rfl⟩ : ∃ m, n = m + 1 := ⟨n - 1, by omega⟩
  rw [List.dropLast_eq_take, wreg_length]
  simp only [wreg, List.reverse_append, List.reverse_singleton, List.singleton_append,
    List.take_succ_cons, List.length_append, List.length_singleton,
    List.take_append_eq_append_take, List.take_take, List.length_take,
    List.length_reverse, List.take_replicate, Nat.add_sub_cancel, List.cons_append]
  have e2 : (m - (m + 1) ⊓ p.length) ⊓ (m + 1 - p.length) = m + 1 - (p.length + 1) := by
    omega
  rw [e2]
  simp

theorem wacc_append (n : ℕ) (p : List ℤ) (s : ℤ) (hn : 1 ≤ n) :
    wacc n (p ++ [s]) = wacc n p + s - evictVal n p := by
  rcases lt_or_le p.length n with h | h
  · have h1 : p.length + 1 - n = 0 := by omega
    have h2 : p.length - n = 0 := by omega
    simp [wacc, evictVal, h, h1, h2]
  · have hlt : p.length - n < p.length := by omega
    have h1 : p.length + 1 - n = (p.length - n) + 1 := by omega
    have h2 : p.length + 1 - n - p.length = 0 := by omega
    rw [wacc, wacc, evictVal, if_neg (by omega)]
    simp only [List.length_append, List.length_singleton]
    rw [List.drop_append_eq_append_drop, h2, List.drop_zero, List.sum_append, h1,
      List.drop_eq_getElem_cons hlt, List.getD_eq_getElem p 0 hlt]
    simp only [List.sum_cons, List.sum_nil]
    ring

theorem fpgaStep_state (n : ℕ) (p : List ℤ) (s : ℤ) (hn : 1 ≤ n) :
    fpgaStep s (wacc n p) (wreg n p) = some (wacc n (p ++ [s]), wreg n (p ++ [s])) := by
  simp only [fpgaStep, wreg_getLast? n p hn, wacc_append n p s hn, wreg_append n p s hn]

theorem windowSum_eq_wacc (n : ℕ) (p rest : List ℤ) (i : ℕ) (hi : i < rest.length) :
    windowSum n (p ++ rest) (p.length + i) = wacc n (p ++ rest.take (i + 1)) := by
  have ht : (p ++ rest).take (p.length + i + 1) = p ++ rest.take (i + 1) := by
    rw [List.take_append_eq_append_take, List.take_of_length_le (by omega)]
    congr 2
    omega
  have hlen : (p ++ rest.take (i + 1)).length = p.length + i + 1 := by
    simp only [List.length_append, List.length_take]
    omega
  rw [windowSum, wacc, ht, hlen]

theorem wreg_sum (n : ℕ) (p : List ℤ) : (wreg n p).sum = wacc n p := by
  rw [wreg, wacc, List.sum_append]
  have h : (p.reverse.take n).sum = ((p.reverse.take n).reverse).sum :=
    (List.sum_reverse _).symm
  rw [h, List.reverse_take, List.reverse_reverse, List.length_reverse]
  simp

theorem fpgaLoop_eq (n : ℕ) (mr : Bool) (e : ℤ) (hn : 1 ≤ n) :
    ∀ (rest p : List ℤ),
      fpgaLoop n mr e rest (wacc n p) (wreg n p) =
        some ((List.range rest.length).map
          (fun i => quantize mr n e (windowSum n (p ++ rest) (p.length + i)))) := by
  intro rest
  induction rest with
  | nil => intro p; simp [fpgaLoop]
  | cons s rest ih =>
    intro p
    rw [fpgaLoop, fpgaStep_state n p s hn]
    dsimp only
    rw [ih (p ++ [s])]
    simp only [Option.map_some', List.length_cons, List.range_succ_eq_map,
      List.map_cons, List.map_map, Option.some.injEq, List.cons.injEq]
    constructor
    · rw [windowSum_eq_wacc n p (s :: rest) 0 (by simp)]
      simp
    · apply List.map_congr_left
      intro i hi
      simp only [Function.comp_apply, Nat.succ_eq_add_one, List.append_assoc,
        List.singleton_append, List.length_append, List.length_singleton]
      exact congrArg (quantize mr n e)
        (congrArg (windowSum n (p ++ s :: rest)) (by omega))

theorem fpga_eq_spec (samples : List ℤ) (n : ℕ) (mr : Bool) (e : ℤ) (hn : 1 ≤ n) :
    fpga_moving_integrator samples n mr e =
      some ((List.range samples.length).map
        (fun k => quantize mr n e (windowSum n samples k))) := by
  have h := fpgaLoop_eq n mr e hn samples []
  simpa [fpga_moving_integrator, wacc, wreg] using h

theorem fpgaStatesFrom_eq (n : ℕ) (hn : 1 ≤ n) :
    ∀ (rest p : List ℤ),
      fpgaStatesFrom rest (wacc n p) (wreg n p) =
        (List.range rest.length).map
          (fun i => (wacc n (p ++ rest.take (i + 1)), wreg n (p ++ rest.take (i + 1)))) := by
  intro rest
  induction rest with
  | nil => intro p; simp [fpgaStatesFrom]
  | cons s rest ih =>
    intro p
    rw [fpgaStatesFrom, fpgaStep_state n p s hn]
    dsimp only
    rw [ih (p ++ [s])]
    simp only [List.length_cons, List.range_succ_eq_map, List.map_cons, List.map_map,
      List.cons.injEq]
    constructor
    · simp
    · apply List.map_congr_left
      intro i hi
      simp [Nat.succ_eq_add_one, List.take_succ_cons]

theorem fpgaStates_fst (samples : List ℤ) (n : ℕ) (hn : 1 ≤ n) :
    (fpgaStates n samples).map Prod.fst =
      (List.range samples.length).map (windowSum n samples) := by
  have h := fpgaStatesFrom_eq n hn samples []
  rw [fpgaStates]
  have h0 : wacc n ([] : List ℤ) = 0 := by simp [wacc]
  have h1 : wreg n ([] : List ℤ) = List.replicate n 0 := by simp [wreg]
  rw [h0, h1] at h
  rw [h, List.map_map]
  apply List.map_congr_left
  intro i hi
  have hi' : i < samples.length := by simpa using hi
  have h2 := windowSum_eq_wacc n [] samples i hi'
  simp only [List.nil_append, List.length_nil, Nat.zero_add] at h2
  simp only [Function.comp_apply, List.nil_append]
  exact h2.symm

/-! Helper lemmas about the rounding and quantization arithmetic. -/

theorem roundHalfEven_intCast (m : ℤ) : roundHalfEven (m : ℚ) = m := by
  rw [roundHalfEven, Int.floor_intCast]
  rw [if_pos]
  norm_num

theorem roundHalfEven_ge_floor (q : ℚ) : ⌊q⌋ ≤ roundHalfEven q := by
  rw [roundHalfEven]
  split_ifs <;> omega

theorem abs_sub_roundHalfEven (q : ℚ) : |q - roundHalfEven q| ≤ 1 / 2 := by
  have h0 : (⌊q⌋ : ℚ) ≤ q := Int.floor_le q
  have h1 : q < ⌊q⌋ + 1 := Int.lt_floor_add_one q
  rw [roundHalfEven]
  split_ifs with ha hb hc
  · rw [abs_of_nonneg (by linarith)]
    linarith
  · push_cast
    rw [abs_of_nonpos (by linarith)]
    linarith
  · rw [abs_of_nonneg (by linarith)]
    linarith
  · push_cast
    rw [abs_of_nonpos (by linarith)]
    linarith

theorem roundHalfEven_nearest (q : ℚ) (m : ℤ) :
    |q - roundHalfEven q| ≤ |q - (m : ℚ)| := by
  rcases eq_or_ne (roundHalfEven q) m with rfl | hne
  · exact le_refl _
  · have hz : (1 : ℤ) ≤ |roundHalfEven q - m| := Int.one_le_abs (sub_ne_zero.mpr hne)
    have h1 : (1 : ℚ) ≤ |(roundHalfEven q : ℚ) - (m : ℚ)| := by exact_mod_cast hz
    have h2 := abs_sub_roundHalfEven q
    have h3 : |(roundHalfEven q : ℚ) - (m : ℚ)| ≤
        |(roundHalfEven q : ℚ) - q| + |q - (m : ℚ)| := abs_sub_le _ _ _
    have h4 : |(roundHalfEven q : ℚ) - q| = |q - (roundHalfEven q : ℚ)| := abs_sub_comm _ _
    linarith

theorem roundHalfEven_tie (q : ℚ) (h : q - ⌊q⌋ = 1 / 2) : Even (roundHalfEven q) := by
  rw [roundHalfEven]
  split_ifs with ha hb hc
  · exfalso; linarith
  · exfalso; linarith
  · exact Int.even_iff.mpr hc
  · refine Int.even_add_one.mpr (fun he => hc ?_)
    exact Int.even_iff.mp he

theorem quantize_false_le_true (n : ℕ) (e : ℤ) (a : ℤ) :
    quantize false n e a ≤ quantize true n e a := by
  simp only [quantize, if_true, Bool.false_eq_true, if_false]
  gcongr
  exact_mod_cast roundHalfEven_ge_floor _

theorem scaledVal_mul_self (n : ℕ) (e : ℤ) (v : ℤ) (hn : 1 ≤ n) :
    scaledVal n e (v * n) = (v : ℚ) * 2 ^ e := by
  have hne : (n : ℚ) ≠ 0 := Nat.cast_ne_zero.mpr (by omega)
  rw [scaledVal]
  push_cast
  rw [mul_div_assoc, div_self hne, mul_one]

theorem quantize_of_scaled_int (mr : Bool) (n : ℕ) (e : ℤ) (a m : ℤ)
    (h : scaledVal n e a = (m : ℚ)) : quantize mr n e a = (m : ℚ) / 2 ^ e := by
  cases mr <;> simp [quantize, h, roundHalfEven_intCast, Int.floor_intCast]

theorem quantize_zero (mr : Bool) (n : ℕ) (e : ℤ) : quantize mr n e 0 = 0 := by
  have h : scaledVal n e 0 = ((0 : ℤ) : ℚ) := by simp [scaledVal]
  rw [quantize_of_scaled_int mr n e 0 0 h]
  simp

theorem windowSum_replicate (n L k : ℕ) (v : ℤ) (hn : 1 ≤ n) (hk1 : n - 1 ≤ k)
    (hkL : k < L) : windowSum n (List.replicate L v) k = v * n := by
  rw [windowSum, List.take_replicate, List.drop_replicate, List.sum_replicate]
  have h : (k + 1) ⊓ L - (k + 1 - n) = n := by omega
  rw [h, nsmul_eq_mul, mul_comm]

theorem windowSum_of_all_zero (n : ℕ) (samples : List ℤ)
    (hz : ∀ x ∈ samples, x = 0) (k : ℕ) : windowSum n samples k = 0 := by
  rw [windowSum]
  apply List.sum_eq_zero
  intro x hx
  exact hz x (List.mem_of_mem_take (List.mem_of_mem_drop hx))

theorem getD_map_range {α : Type} (L k : ℕ) (f : ℕ → α) (d : α) (h : k < L) :
    ((List.range L).map f).getD k d = f k := by
  rw [List.getD_eq_getElem _ _ (by simpa using h)]
  simp

/-! Claim theorems. -/

/-- C1: in Truncate mode (math_round = False) every emitted output equals
`floor(accumulator / integration * 2 ^ extra_bits) / 2 ^ extra_bits`, where the
floor is toward negative infinity (`Int.floor` of the exact scaled rational, not
truncation toward zero) and the scaling by `2 ^ extra_bits` is applied to the
exact scaled value before quantization; the accumulator after sample `k` is the
window sum `windowSum n samples k`, as witnessed by the state trace. -/
theorem C1_truncate_floor_prescaled (samples : List ℤ) (n : ℕ) (e : ℤ) (hn : 1 ≤ n) :
    fpga_moving_integrator samples n false e =
      some ((List.range samples.length).map
        (fun k => ((⌊(windowSum n samples k : ℚ) / (n : ℚ) * 2 ^ e⌋ : ℤ) : ℚ) / 2 ^ e)) ∧
      (fpgaStates n samples).map Prod.fst =
        (List.range samples.length).map (windowSum n samples) := by
  refine ⟨?_, fpgaStates_fst samples n hn⟩
  rw [fpga_eq_spec samples n false e hn]
  simp [quantize, scaledVal]

/-- Witness for C1 at a concrete input. -/
theorem C1_witness :
    fpga_moving_integrator [1, -3] 2 false 1 =
      some ((List.range (2 : ℕ)).map
        (fun k => ((⌊(windowSum 2 [1, -3] k : ℚ) / ((2 : ℕ) : ℚ) * 2 ^ (1 : ℤ)⌋ : ℤ) : ℚ) /
          2 ^ (1 : ℤ))) ∧
      (fpgaStates 2 [1, -3]).map Prod.fst =
        (List.range (2 : ℕ)).map (windowSum 2 [1, -3]) :=
  C1_truncate_floor_prescaled [1, -3] 2 1 (by omega)

/-- C2 as stated is false on the code: the third output of
`fpga_moving_integrator([1..8], 4, Truncate, extra_bits = 0)` is `floor(6/4) = 1`,
not `0`. -/
theorem C2_counterexample :
    fpga_moving_integrator [1, 2, 3, 4, 5, 6, 7, 8] 4 false 0 ≠
      some [0, 0, 0, 2, 3, 4, 5, 6] := by
  with_unfolding_all decide

/-- C2 amended: the sequence actually produced is `[0, 0, 1, 2, 3, 4, 5, 6]`
(the accumulator over the zero-pre-filled window, divided by 4 and floored). -/
theorem C2_amended_sequence :
    fpga_moving_integrator [1, 2, 3, 4, 5, 6, 7, 8] 4 false 0 =
      some [0, 0, 1, 2, 3, 4, 5, 6] := by
  with_unfolding_all rfl

/-- C3: for every input and every integration ≥ 1, after each per-sample update
the accumulator equals the sum of the current window contents and the window
length equals the integration factor; the trace has one state per sample. -/
theorem C3_accumulator_window_invariant (samples : List ℤ) (n : ℕ) (hn : 1 ≤ n) :
    (fpgaStates n samples).length = samples.length ∧
      ∀ st ∈ fpgaStates n samples, st.1 = st.2.sum ∧ st.2.length = n := by
  have h0 : wacc n ([] : List ℤ) = 0 := by simp [wacc]
  have h1 : wreg n ([] : List ℤ) = List.replicate n 0 := by simp [wreg]
  have h := fpgaStatesFrom_eq n hn samples []
  rw [h0, h1] at h
  rw [fpgaStates, h]
  constructor
  · simp
  · intro st hst
    obtain ⟨i, hi, rfl⟩ := List.mem_map.mp hst
    exact ⟨(wreg_sum n _).symm, wreg_length n _⟩

/-- Witness for C3 at a concrete input. -/
theorem C3_witness :
    (fpgaStates 2 [1, 2, 3]).length = (3 : ℕ) ∧
      ∀ st ∈ fpgaStates 2 [1, 2, 3], st.1 = st.2.sum ∧ st.2.length = 2 :=
  C3_accumulator_window_invariant [1, 2, 3] 2 (by omega)

/-- C4 as stated is false on the code: with integration = 0 and an empty sample
sequence, `fpga_moving_integrator` raises no error at all and silently returns an
empty result, instead of failing with an InvalidParameter error detected
synchronously. -/
theorem C4_counterexample :
    fpga_moving_integrator [] 0 false 0 = some [] ∧
      fpga_moving_integrator [] 0 false 0 ≠ none := by
  constructor
  · rfl
  · simp [fpga_moving_integrator, fpgaLoop]

/-- C4 amended: with integration = 0, `fpga_moving_integrator` fails (the pop
from the empty shift register raises) only when the sample sequence is non-empty,
producing no partial result, while an empty sample sequence silently yields an
empty output; `moving_integrator` with integration = 0 always fails (numpy
rejects the empty kernel).  In both cases the failure is a generic runtime
error raised mid-call, not a synchronous InvalidParameter check. -/
theorem C4_amended_zero_integration (samples : List ℤ) (qs : List ℚ) (mr : Bool)
    (e : ℤ) (trimOutput : Bool) :
    (samples ≠ [] → fpga_moving_integrator samples 0 mr e = none) ∧
      moving_integrator qs 0 trimOutput = none := by
  constructor
  · intro hs
    obtain ⟨s, rest, rfl⟩ := List.exists_cons_of_ne_nil hs
    simp [fpga_moving_integrator, fpgaLoop, fpgaStep]
  · simp [moving_integrator, npConvolve]

/-- Witness for C4 (amended) at a concrete input. -/
theorem C4_witness :
    fpga_moving_integrator [7] 0 false 0 = none ∧ moving_integrator [7] 0 true = none :=
  ⟨(C4_amended_zero_integration [7] [7] false 0 true).1 (by simp),
   (C4_amended_zero_integration [7] [7] false 0 true).2⟩

/-- C5: for a constant input of value `v` and integration ≥ 1, at every index
`k ≥ integration - 1` the accumulator equals `v * integration`, and whenever
`v * 2 ^ extra_bits` is an exact integer the emitted output at `k` equals `v`,
in either rounding mode. -/
theorem C5_constant_input (v : ℤ) (n L k : ℕ) (e : ℤ) (mr : Bool)
    (hn : 1 ≤ n) (hk1 : n - 1 ≤ k) (hkL : k < L) :
    ((fpgaStates n (List.replicate L v)).map Prod.fst).getD k 0 = v * n ∧
      ∀ m : ℤ, (v : ℚ) * 2 ^ e = (m : ℚ) →
        ∃ out, fpga_moving_integrator (List.replicate L v) n mr e = some out ∧
          out.getD k 0 = (v : ℚ) := by
  have hw := windowSum_replicate n L k v hn hk1 hkL
  have hL : (List.replicate L v).length = L := List.length_replicate L v
  constructor
  · rw [fpgaStates_fst (List.replicate L v) n hn, hL, getD_map_range L k _ 0 hkL, hw]
  · intro m hm
    refine ⟨_, fpga_eq_spec (List.replicate L v) n mr e hn, ?_⟩
    rw [hL, getD_map_range L k _ 0 hkL, hw]
    have hs : scaledVal n e (v * n) = (m : ℚ) := by
      rw [scaledVal_mul_self n e v hn, hm]
    rw [quantize_of_scaled_int mr n e (v * n) m hs, ← hm]
    have h2 : ((2 : ℚ) ^ e) ≠ 0 := zpow_ne_zero e (by norm_num)
    rw [mul_div_assoc, div_self h2, mul_one]

/-- Witness for C5 at a concrete input. -/
theorem C5_witness :
    ((fpgaStates 2 (List.replicate 4 3)).map Prod.fst).getD 1 0 = 3 * 2 ∧
      ∀ m : ℤ, ((3 : ℤ) : ℚ) * 2 ^ (0 : ℤ) = (m : ℚ) →
        ∃ out, fpga_moving_integrator (List.replicate 4 3) 2 false 0 = some out ∧
          out.getD 1 0 = ((3 : ℤ) : ℚ) :=
  C5_constant_input 3 2 4 1 0 false (by omega) (by omega) (by omega)

/-- C6: for every integration ≥ 1 and every all-zero input sequence, every
output of `fpga_moving_integrator` is exactly zero, in both rounding modes and
for any extra_bits. -/
theorem C6_zero_input (samples : List ℤ) (n : ℕ) (mr : Bool) (e : ℤ)
    (hn : 1 ≤ n) (hz : ∀ x ∈ samples, x = 0) :
    ∃ out, fpga_moving_integrator samples n mr e = some out ∧ ∀ q ∈ out, q = 0 := by
  refine ⟨_, fpga_eq_spec samples n mr e hn, ?_⟩
  intro q hq
  obtain ⟨k, hk, rfl⟩ := List.mem_map.mp hq
  rw [windowSum_of_all_zero n samples hz k, quantize_zero]

/-- Witness for C6 at a concrete input. -/
theorem C6_witness :
    ∃ out, fpga_moving_integrator [0, 0] 1 true (-2) = some out ∧ ∀ q ∈ out, q = 0 :=
  C6_zero_input [0, 0] 1 true (-2) (by omega) (by decide)

/-- C7: for every input, integration ≥ 1 and extra_bits, the Truncate-mode output
of `fpga_moving_integrator` is pointwise less than or equal to the Round-mode
output, for any accumulator sign. -/
theorem C7_truncate_le_round (samples : List ℤ) (n : ℕ) (e : ℤ) (hn : 1 ≤ n) :
    ∃ outT outR,
      fpga_moving_integrator samples n false e = some outT ∧
      fpga_moving_integrator samples n true e = some outR ∧
      List.Forall₂ (fun a b => a ≤ b) outT outR := by
  refine ⟨_, _, fpga_eq_spec samples n false e hn, fpga_eq_spec samples n true e hn, ?_⟩
  rw [List.forall₂_map_left_iff, List.forall₂_map_right_iff, List.forall₂_same]
  intro k hk
  exact quantize_false_le_true n e (windowSum n samples k)

/-- Witness for C7 at a concrete input. -/
theorem C7_witness :
    ∃ outT outR,
      fpga_moving_integrator [1, 2, 3] 2 false 0 = some outT ∧
      fpga_moving_integrator [1, 2, 3] 2 true 0 = some outR ∧
      List.Forall₂ (fun a b => a ≤ b) outT outR :=
  C7_truncate_le_round [1, 2, 3] 2 0 (by omega)

/-- C8: for every non-empty sample sequence and integration ≥ 1,
`moving_integrator` returns a sequence of length `len(samples) + integration - 1`
untrimmed and of length exactly `len(samples)` trimmed. -/
theorem C8_output_lengths (samples : List ℚ) (n : ℕ) (hs : samples ≠ []) (hn : 1 ≤ n) :
    ∃ outF outT,
      moving_integrator samples n false = some outF ∧
      moving_integrator samples n true = some outT ∧
      outF.length = samples.length + n - 1 ∧
      outT.length = samples.length := by
  have hs' : ¬ samples.length = 0 := by simpa [List.length_eq_zero] using hs
  have hcv : npConvolve samples (List.replicate n ((n : ℚ)⁻¹)) =
      some (convFull samples (List.replicate n ((n : ℚ)⁻¹))) := by
    rw [npConvolve, if_neg]
    simp only [List.length_replicate]
    push_neg
    exact ⟨hs', by omega⟩
  refine ⟨convFull samples (List.replicate n ((n : ℚ)⁻¹)),
    (convFull samples (List.replicate n ((n : ℚ)⁻¹))).take samples.length, ?_, ?_, ?_, ?_⟩
  · simp [moving_integrator, hcv]
  · simp [moving_integrator, hcv]
  · simp [convFull]
  · rw [List.length_take]
    simp only [convFull, List.length_map, List.length_range, List.length_replicate]
    omega

/-- Witness for C8 at a concrete input. -/
theorem C8_witness :
    ∃ outF outT,
      moving_integrator [1, 2] 2 false = some outF ∧
      moving_integrator [1, 2] 2 true = some outT ∧
      outF.length = 2 + 2 - 1 ∧
      outT.length = 2 :=
  C8_output_lengths [1, 2] 2 (by simp) (by omega)

/-- C9 as stated is false on the code: `moving_integrator` on an empty sample
sequence fails (numpy convolve rejects the empty input array) instead of
returning an empty output. -/
theorem C9_counterexample :
    moving_integrator [] 4 true = none ∧ moving_integrator [] 4 true ≠ some [] := by
  constructor
  · rfl
  · simp [moving_integrator, npConvolve]

/-- C9 amended: for every integration and either trim setting,
`moving_integrator` on an empty sample sequence fails (numpy ValueError,
modelled as `none`) rather than producing an empty output sequence. -/
theorem C9_empty_input_fails (n : ℕ) (trimOutput : Bool) :
    moving_integrator [] n trimOutput = none := by
  simp [moving_integrator, npConvolve]

/-- C10: in Round mode the emitted output at index `k` is
`roundHalfEven(scaled) / 2 ^ extra_bits` where `scaled` is the exact scaled value
of the accumulator; `roundHalfEven(scaled)` is a nearest integer to `scaled`, and
at every exact half-way point the tie is resolved to the even integer (banker's
rounding), before the division by `2 ^ extra_bits`. -/
theorem C10_round_half_even (samples : List ℤ) (n : ℕ) (e : ℤ) (hn : 1 ≤ n) :
    ∃ out, fpga_moving_integrator samples n true e = some out ∧
      out.length = samples.length ∧
      ∀ k, k < samples.length →
        out.getD k 0 = (roundHalfEven (scaledVal n e (windowSum n samples k)) : ℚ) / 2 ^ e ∧
        (∀ m : ℤ,
          |scaledVal n e (windowSum n samples k) -
              (roundHalfEven (scaledVal n e (windowSum n samples k)) : ℚ)| ≤
            |scaledVal n e (windowSum n samples k) - (m : ℚ)|) ∧
        (scaledVal n e (windowSum n samples k) -
            (⌊scaledVal n e (windowSum n samples k)⌋ : ℚ) = 1 / 2 →
          Even (roundHalfEven (scaledVal n e (windowSum n samples k)))) := by
  refine ⟨_, fpga_eq_spec samples n true e hn, by simp, ?_⟩
  intro k hk
  refine ⟨?_, fun m => roundHalfEven_nearest _ m, fun h => roundHalfEven_tie _ h⟩
  rw [getD_map_range samples.length k _ 0 hk]
  simp [quantize]

/-- Witness for C10 at a concrete input. -/
theorem C10_witness :
    ∃ out, fpga_moving_integrator [1, 2] 2 true 0 = some out ∧
      out.length = (2 : ℕ) ∧
      ∀ k, k < (2 : ℕ) →
        out.getD k 0 = (roundHalfEven (scaledVal 2 0 (windowSum 2 [1, 2] k)) : ℚ) / 2 ^ (0 : ℤ) ∧
        (∀ m : ℤ,
          |scaledVal 2 0 (windowSum 2 [1, 2] k) -
              (roundHalfEven (scaledVal 2 0 (windowSum 2 [1, 2] k)) : ℚ)| ≤
            |scaledVal 2 0 (windowSum 2 [1, 2] k) - (m : ℚ)|) ∧
        (scaledVal 2 0 (windowSum 2 [1, 2] k) -
            (⌊scaledVal 2 0 (windowSum 2 [1, 2] k)⌋ : ℚ) = 1 / 2 →
          Even (roundHalfEven (scaledVal 2 0 (windowSum 2 [1, 2] k)))) :=
  C10_round_half_even [1, 2] 2 0 (by omega)

end MovingIntegrator
